import Mathlib

/-!
# Verification of `ts_hashmap.c` (thread-safe chained hashmap)

Shallow embedding of the C sources `src/ts_hashmap.c` / `src/ts_hashmap.h`.

The map is a fixed-capacity array of bucket chains.  Each operation
(`get`, `put`, `del`) computes a bucket index as
`(unsigned int)key % (unsigned int)capacity`, takes that bucket's lock,
works on the singly-linked chain, releases the lock, and then updates the
counter block (`numOps` plus one outcome counter) under a separate mutex.

Since every operation holds at most one bucket lock and the claims under
study are about quiescent (sequential) behaviour, the embedding is a
sequential state machine: a `ts_hashmap_t` state plus the three operations
as pure state transformers.  `malloc` outcomes are made explicit: `put`
takes an `allocOk` flag for the `malloc` of the new entry, and `initmap`
takes an oracle giving the outcome of each of its three allocations.

C `int` values are modelled as `Int`; the only place the machine width
matters is the cast `(unsigned int)key`, modelled as `key mod 2^32`.
`INT_MAX = 2147483647` is the in-band sentinel the code returns for
"not found" and "key was new".
-/

/-- `INT_MAX` from `<limits.h>` for 32-bit `int`: the sentinel value the code
returns for "not found" (get/del) and "key was new" (put). -/
def INT_MAX : Int := 2147483647

/-- `(unsigned int)x` for a C `int` value `x`: its residue mod `2^32`. -/
def toUInt32n (x : Int) : Nat := (x % 4294967296).toNat

/-- `ts_entry_t`: key, value, and (implicitly, via the list) the next link. -/
structure TsEntry where
  key : Int
  value : Int
deriving DecidableEq, Repr

/-- A bucket's chain: the `next`-linked list hanging off `table[i]`. -/
abbrev Chain := List TsEntry

/-- `ts_hashmap_t`: the bucket table, capacity, and all counters.
The mutexes carry no data and are omitted from the sequential state. -/
structure TsHashmap where
  table : List Chain
  capacity : Int
  numOps : Int
  size : Int
  gets : Int
  put_adds : Int
  put_reps : Int
  del_succ : Int
  del_fail : Int
deriving DecidableEq, Repr

/-- `(unsigned int)key % (unsigned int)map->capacity`: the bucket index
computed by `get`, `put` and `del`. -/
def bucketIdx (key capacity : Int) : Nat :=
  toUInt32n key % toUInt32n capacity

/-- The chain scan of `get`: `value` starts as `INT_MAX` and the loop breaks
at the first entry whose key matches. -/
def chainFind (key : Int) : Chain → Int
  | [] => INT_MAX
  | e :: rest => if e.key = key then e.value else chainFind key rest

/-- The `found` flag computed by the scan loops of `put` and `del`:
whether some entry of the chain has the given key. -/
def chainContains (key : Int) : Chain → Bool
  | [] => false
  | e :: rest => if e.key = key then true else chainContains key rest

/-- The chain mutation of `put`'s found-branch: overwrite the value of the
first entry whose key matches (the loop breaks after it). -/
def chainReplace (key value : Int) : Chain → Chain
  | [] => []
  | e :: rest =>
      if e.key = key then { e with value := value } :: rest
      else e :: chainReplace key value rest

/-- The chain mutation of `del`'s found-branch: unlink the first entry whose
key matches (the loop breaks after freeing it). -/
def chainRemove (key : Int) : Chain → Chain
  | [] => []
  | e :: rest => if e.key = key then rest else e :: chainRemove key rest

/-- The chain stored at bucket `i` (an out-of-range index yields the empty
chain; well-formed states never index out of range). -/
def chainAt (m : TsHashmap) (i : Nat) : Chain := m.table.getD i []

/-- Whether `key` is currently bound in the map: the `found` flag a `put` or
`del` on `key` would compute. -/
def containsKey (m : TsHashmap) (key : Int) : Bool :=
  chainContains key (chainAt m (bucketIdx key m.capacity))

/-- `get(map, key)`: scan the key's bucket chain for the first match
(default `INT_MAX`), then `numOps++` and `gets++`.  Returns the value and
the new state. -/
def get (m : TsHashmap) (key : Int) : Int × TsHashmap :=
  let index := bucketIdx key m.capacity
  let value := chainFind key (chainAt m index)
  (value, { m with numOps := m.numOps + 1, gets := m.gets + 1 })

/-- `put(map, key, value)`: if the key is found, overwrite its value in
place and return the old one (`numOps++`, `put_reps++`); otherwise
`malloc` a new entry — `allocOk` is that `malloc`'s outcome.  On success the
entry is appended at the tail of the chain, `size++`, `numOps++`,
`put_adds++`, and `INT_MAX` is returned; on allocation failure the function
returns `INT_MAX` after only `numOps++`. -/
def put (m : TsHashmap) (key value : Int) (allocOk : Bool) : Int × TsHashmap :=
  let index := bucketIdx key m.capacity
  let chain := chainAt m index
  if chainContains key chain then
    (chainFind key chain,
      { m with table := m.table.set index (chainReplace key value chain),
               numOps := m.numOps + 1, put_reps := m.put_reps + 1 })
  else if allocOk then
    (INT_MAX,
      { m with table := m.table.set index (chain ++ [⟨key, value⟩]),
               size := m.size + 1,
               numOps := m.numOps + 1, put_adds := m.put_adds + 1 })
  else
    (INT_MAX, { m with numOps := m.numOps + 1 })

/-- `del(map, key)`: if the key is found, unlink the first matching entry,
`size--`, `numOps++`, `del_succ++`, and return its value; otherwise
`numOps++`, `del_fail++`, and return `INT_MAX`. -/
def del (m : TsHashmap) (key : Int) : Int × TsHashmap :=
  let index := bucketIdx key m.capacity
  let chain := chainAt m index
  if chainContains key chain then
    (chainFind key chain,
      { m with table := m.table.set index (chainRemove key chain),
               size := m.size - 1,
               numOps := m.numOps + 1, del_succ := m.del_succ + 1 })
  else
    (INT_MAX, { m with numOps := m.numOps + 1, del_fail := m.del_fail + 1 })

/-- The map state `initmap(capacity)` builds when every allocation
succeeds: `capacity` chains zeroed by `calloc`, all counters zero. -/
def initState (capacity : Int) : TsHashmap :=
  { table := List.replicate capacity.toNat []
    capacity := capacity
    numOps := 0, size := 0
    gets := 0, put_adds := 0, put_reps := 0, del_succ := 0, del_fail := 0 }

/-- The three heap blocks `initmap` allocates. -/
inductive Resource where
  | mapStruct
  | tableArr
  | locksArr
deriving DecidableEq, Repr

/-- Outcomes of the three allocations inside `initmap`, in program order:
`malloc` of the map struct, `calloc` of the table, `malloc` of the locks. -/
structure AllocOracle where
  mapOk : Bool
  tableOk : Bool
  locksOk : Bool
deriving DecidableEq, Repr

/-- What `initmap` hands back: the map (or `NULL`), together with the heap
blocks it allocated and the ones it freed before returning. -/
structure InitResult where
  result : Option TsHashmap
  allocated : List Resource
  freed : List Resource
deriving DecidableEq, Repr

/-- `initmap(capacity)`: `malloc` the struct, `calloc` the table, `malloc`
the locks, in that order; on any allocation failure free what was allocated
so far and return `NULL`.  There is no check on `capacity` itself. -/
def initmap (capacity : Int) (o : AllocOracle) : InitResult :=
  if o.mapOk = false then
    { result := none, allocated := [], freed := [] }
  else if o.tableOk = false then
    { result := none, allocated := [.mapStruct], freed := [.mapStruct] }
  else if o.locksOk = false then
    { result := none
      allocated := [.mapStruct, .tableArr]
      freed := [.tableArr, .mapStruct] }
  else
    { result := some (initState capacity)
      allocated := [.mapStruct, .tableArr, .locksArr]
      freed := [] }

/-- One client call, with the `malloc` outcome a `put` would see. -/
inductive Op where
  | opGet (key : Int)
  | opPut (key value : Int) (allocOk : Bool)
  | opDel (key : Int)
deriving DecidableEq, Repr

/-- Execute one operation, dropping the returned value. -/
def applyOp (m : TsHashmap) : Op → TsHashmap
  | .opGet k => (get m k).2
  | .opPut k v a => (put m k v a).2
  | .opDel k => (del m k).2

/-- Execute a sequence of operations left to right. -/
def run (m : TsHashmap) : List Op → TsHashmap
  | [] => m
  | op :: rest => run (applyOp m op) rest

/-- Whether an operation is a put or delete on the given key. -/
def touches : Op → Int → Bool
  | .opGet _, _ => false
  | .opPut k _ _, k' => k = k'
  | .opDel k, k' => k = k'

/-- Whether the `malloc` inside the operation (if any) succeeds. -/
def opAllocOk : Op → Bool
  | .opGet _ => true
  | .opPut _ _ a => a
  | .opDel _ => true

/-- Well-formedness tying the table to the capacity: positive `int`
capacity and one chain per bucket, as produced by a successful `initmap`. -/
def WF (m : TsHashmap) : Prop :=
  0 < m.capacity ∧ m.capacity < 2147483648 ∧ m.table.length = m.capacity.toNat

/-- Per-bucket invariant: keys are pairwise distinct in the chain and every
entry in bucket `i` hashes to `i`. -/
def chainOK (capacity : Int) (i : Nat) (c : Chain) : Prop :=
  (c.map TsEntry.key).Nodup ∧ ∀ e ∈ c, bucketIdx e.key capacity = i

/-- Whole-map structural invariant: every bucket chain is well-placed and
duplicate-free. -/
def MapInv (m : TsHashmap) : Prop :=
  ∀ i, i < m.table.length → chainOK m.capacity i (chainAt m i)

/-- Whether, in state `m`, the operation is a successful insert: a `put` on
an absent key whose entry allocation succeeds. -/
def insertCount (m : TsHashmap) : Op → Int
  | .opPut k _ a => if containsKey m k = false ∧ a = true then 1 else 0
  | _ => 0

/-- Whether, in state `m`, the operation is a successful delete: a `del` on
a present key. -/
def delSuccCount (m : TsHashmap) : Op → Int
  | .opDel k => if containsKey m k = true then 1 else 0
  | _ => 0

/-- Number of successful inserts (`put` on an absent key whose allocation
succeeds) performed by a sequence of operations run from `m`. -/
def countInsertsFrom (m : TsHashmap) : List Op → Int
  | [] => 0
  | op :: rest => insertCount m op + countInsertsFrom (applyOp m op) rest

/-- Number of successful deletes (`del` on a present key) performed by a
sequence of operations run from `m`. -/
def countDelSuccFrom (m : TsHashmap) : List Op → Int
  | [] => 0
  | op :: rest => delSuccCount m op + countDelSuccFrom (applyOp m op) rest

/-- Sum of the chain lengths over all buckets, as an `int`. -/
def sumLens (t : List Chain) : Int :=
  ((t.map List.length).sum : Nat)

/-- The percentage `freeMap` prints for one outcome counter:
`(count * 100.0) / numOps`.  The division is performed unconditionally; a
zero `numOps` makes it the IEEE indeterminate `0.0 / 0.0`, modelled as
`none` (no defined percentage). -/
def reportPercent (count numOps : Int) : Option ℚ :=
  if numOps = 0 then none else some ((count * 100 : ℚ) / (numOps : ℚ))

/-- The final report `freeMap` prints: each counter with its percentage of
`numOps`, then `numOps` and `size`. -/
structure Report where
  getsCt : Int
  getsPct : Option ℚ
  putAddsCt : Int
  putAddsPct : Option ℚ
  putRepsCt : Int
  putRepsPct : Option ℚ
  delSuccCt : Int
  delSuccPct : Option ℚ
  delFailCt : Int
  delFailPct : Option ℚ
  totalOps : Int
  mapSize : Int
deriving DecidableEq, Repr

/-- The profiling report emitted by `freeMap(map)`. -/
def freeMapReport (m : TsHashmap) : Report :=
  { getsCt := m.gets, getsPct := reportPercent m.gets m.numOps
    putAddsCt := m.put_adds, putAddsPct := reportPercent m.put_adds m.numOps
    putRepsCt := m.put_reps, putRepsPct := reportPercent m.put_reps m.numOps
    delSuccCt := m.del_succ, delSuccPct := reportPercent m.del_succ m.numOps
    delFailCt := m.del_fail, delFailPct := reportPercent m.del_fail m.numOps
    totalOps := m.numOps, mapSize := m.size }

/-- The value `get` would return, as a function of the state (the first
component of `get` is exactly this). -/
def lookupVal (m : TsHashmap) (key : Int) : Int :=
  chainFind key (chainAt m (bucketIdx key m.capacity))

/-! ### Chain-level lemmas -/

theorem chainContains_iff_mem (k : Int) (c : Chain) :
    chainContains k c = true ↔ k ∈ c.map TsEntry.key := by
  induction c with
  | nil => simp [chainContains]
  | cons e rest ih =>
      by_cases h : e.key = k
      · simp [chainContains, h]
      · rw [chainContains, if_neg h, ih]
        simp only [List.map_cons, List.mem_cons]
        constructor
        · exact Or.inr
        · rintro (hh | hh)
          · exact absurd hh.symm h
          · exact hh

theorem chainFind_of_not_contains {k : Int} {c : Chain}
    (h : chainContains k c = false) : chainFind k c = INT_MAX := by
  induction c with
  | nil => rfl
  | cons e rest ih =>
      by_cases he : e.key = k
      · simp [chainContains, he] at h
      · simp [chainContains, he] at h
        simp [chainFind, he, ih h]

theorem chainFind_replace_self {k : Int} (v : Int) {c : Chain}
    (h : chainContains k c = true) :
    chainFind k (chainReplace k v c) = v := by
  induction c with
  | nil => simp [chainContains] at h
  | cons e rest ih =>
      by_cases he : e.key = k
      · simp [chainReplace, chainFind, he]
      · simp [chainContains, he] at h
        simp [chainReplace, chainFind, he, ih h]

theorem chainFind_replace_ne {k k' : Int} (v : Int) (c : Chain)
    (h : k ≠ k') : chainFind k (chainReplace k' v c) = chainFind k c := by
  induction c with
  | nil => rfl
  | cons e rest ih =>
      by_cases he : e.key = k'
      · have hek : e.key ≠ k := by rw [he]; exact fun hh => h hh.symm
        rw [chainReplace, if_pos he]
        show (if e.key = k then v else chainFind k rest) = chainFind k (e :: rest)
        rw [chainFind, if_neg hek, if_neg hek]
      · rw [chainReplace, if_neg he, chainFind, chainFind]
        by_cases hek : e.key = k
        · rw [if_pos hek, if_pos hek]
        · rw [if_neg hek, if_neg hek, ih]

theorem chainFind_append_self (k v : Int) {c : Chain}
    (h : chainContains k c = false) :
    chainFind k (c ++ [⟨k, v⟩]) = v := by
  induction c with
  | nil => simp [chainFind]
  | cons e rest ih =>
      by_cases he : e.key = k
      · simp [chainContains, he] at h
      · simp [chainContains, he] at h
        simp [chainFind, he, ih h]

theorem chainFind_append_ne {k k' : Int} (v : Int) (c : Chain)
    (h : k ≠ k') : chainFind k (c ++ [⟨k', v⟩]) = chainFind k c := by
  have h' : k' ≠ k := fun hh => h hh.symm
  induction c with
  | nil => simp [chainFind, h']
  | cons e rest ih =>
      by_cases he : e.key = k <;> simp [chainFind, he, ih]

theorem chainFind_remove_ne {k k' : Int} (c : Chain)
    (h : k ≠ k') : chainFind k (chainRemove k' c) = chainFind k c := by
  induction c with
  | nil => rfl
  | cons e rest ih =>
      by_cases he : e.key = k'
      · have hek : e.key ≠ k := by rw [he]; exact fun hh => h hh.symm
        rw [chainRemove, if_pos he, chainFind, if_neg hek]
      · rw [chainRemove, if_neg he, chainFind, chainFind]
        by_cases hek : e.key = k
        · rw [if_pos hek, if_pos hek]
        · rw [if_neg hek, if_neg hek, ih]

theorem map_key_chainReplace (k v : Int) (c : Chain) :
    (chainReplace k v c).map TsEntry.key = c.map TsEntry.key := by
  induction c with
  | nil => rfl
  | cons e rest ih =>
      by_cases he : e.key = k <;> simp [chainReplace, he, ih]

theorem chainRemove_sublist (k : Int) (c : Chain) :
    (chainRemove k c).Sublist c := by
  induction c with
  | nil => simp [chainRemove]
  | cons e rest ih =>
      by_cases he : e.key = k
      · rw [chainRemove, if_pos he]
        exact List.sublist_cons_self e rest
      · rw [chainRemove, if_neg he]
        exact List.Sublist.cons₂ e ih

theorem chainContains_remove_self {k : Int} {c : Chain}
    (h : (c.map TsEntry.key).Nodup) :
    chainContains k (chainRemove k c) = false := by
  induction c with
  | nil => rfl
  | cons e rest ih =>
      simp only [List.map_cons, List.nodup_cons] at h
      by_cases he : e.key = k
      · rw [chainRemove, if_pos he]
        rw [Bool.eq_false_iff]
        intro hc
        rw [chainContains_iff_mem] at hc
        exact h.1 (he ▸ hc)
      · rw [chainRemove, if_neg he, chainContains, if_neg he]
        exact ih h.2

theorem mem_chainReplace {k v : Int} {c : Chain} {e : TsEntry}
    (h : e ∈ chainReplace k v c) : ∃ e' ∈ c, e'.key = e.key := by
  induction c with
  | nil => simp [chainReplace] at h
  | cons e₀ rest ih =>
      by_cases he : e₀.key = k
      · rw [chainReplace, if_pos he] at h
        rcases List.mem_cons.mp h with hh | hh
        · exact ⟨e₀, List.mem_cons_self _ _, by simp [hh]⟩
        · exact ⟨e, List.mem_cons_of_mem _ hh, rfl⟩
      · rw [chainReplace, if_neg he] at h
        rcases List.mem_cons.mp h with hh | hh
        · exact ⟨e₀, List.mem_cons_self _ _, by rw [hh]⟩
        · rcases ih hh with ⟨e', he', hk⟩
          exact ⟨e', List.mem_cons_of_mem _ he', hk⟩

theorem length_chainReplace (k v : Int) (c : Chain) :
    (chainReplace k v c).length = c.length := by
  induction c with
  | nil => rfl
  | cons e rest ih =>
      by_cases he : e.key = k <;> simp [chainReplace, he, ih]

theorem length_chainRemove {k : Int} {c : Chain}
    (h : chainContains k c = true) :
    (chainRemove k c).length + 1 = c.length := by
  induction c with
  | nil => simp [chainContains] at h
  | cons e rest ih =>
      by_cases he : e.key = k
      · simp [chainRemove, he]
      · simp [chainContains, he] at h
        simp [chainRemove, he, ih h]

/-! ### `getD`/`set` bookkeeping on the bucket table -/

theorem getD_set_eq {l : List Chain} {i : Nat} (c : Chain)
    (h : i < l.length) : (l.set i c).getD i [] = c := by
  induction l generalizing i with
  | nil => simp at h
  | cons hd tl ih =>
      cases i with
      | zero => rfl
      | succ j =>
          simp only [List.set_cons_succ, List.getD_cons_succ]
          exact ih (by simpa using h)

theorem getD_set_ne (l : List Chain) {i j : Nat} (c : Chain)
    (h : i ≠ j) : (l.set i c).getD j [] = l.getD j [] := by
  induction l generalizing i j with
  | nil => simp
  | cons hd tl ih =>
      cases i with
      | zero =>
          cases j with
          | zero => exact absurd rfl h
          | succ j' => rfl
      | succ i' =>
          cases j with
          | zero => rfl
          | succ j' =>
              simp only [List.set_cons_succ, List.getD_cons_succ]
              exact ih fun hh => h (by rw [hh])

/-! ### Branch characterizations of the operations -/

theorem get_eq (m : TsHashmap) (k : Int) :
    get m k = (lookupVal m k,
      { m with numOps := m.numOps + 1, gets := m.gets + 1 }) := rfl

theorem put_found (m : TsHashmap) (k v : Int) (a : Bool)
    (h : containsKey m k = true) :
    put m k v a =
      (lookupVal m k,
       { m with table := m.table.set (bucketIdx k m.capacity)
                  (chainReplace k v (chainAt m (bucketIdx k m.capacity))),
                numOps := m.numOps + 1, put_reps := m.put_reps + 1 }) := by
  rw [containsKey] at h
  simp only [put, lookupVal]
  rw [if_pos h]

theorem put_insert (m : TsHashmap) (k v : Int)
    (h : containsKey m k = false) :
    put m k v true =
      (INT_MAX,
       { m with table := m.table.set (bucketIdx k m.capacity)
                  (chainAt m (bucketIdx k m.capacity) ++ [⟨k, v⟩]),
                size := m.size + 1, numOps := m.numOps + 1,
                put_adds := m.put_adds + 1 }) := by
  rw [containsKey] at h
  simp only [put]
  rw [if_neg (by simp [h])]
  simp

theorem put_alloc_fail (m : TsHashmap) (k v : Int)
    (h : containsKey m k = false) :
    put m k v false = (INT_MAX, { m with numOps := m.numOps + 1 }) := by
  rw [containsKey] at h
  simp only [put]
  rw [if_neg (by simp [h]), if_neg Bool.false_ne_true]

theorem del_found (m : TsHashmap) (k : Int)
    (h : containsKey m k = true) :
    del m k =
      (lookupVal m k,
       { m with table := m.table.set (bucketIdx k m.capacity)
                  (chainRemove k (chainAt m (bucketIdx k m.capacity))),
                size := m.size - 1, numOps := m.numOps + 1,
                del_succ := m.del_succ + 1 }) := by
  rw [containsKey] at h
  simp only [del, lookupVal]
  rw [if_pos h]

theorem del_miss (m : TsHashmap) (k : Int)
    (h : containsKey m k = false) :
    del m k = (INT_MAX,
      { m with numOps := m.numOps + 1, del_fail := m.del_fail + 1 }) := by
  rw [containsKey] at h
  simp only [del]
  rw [if_neg (by simp [h])]

/-! ### Well-formedness is preserved -/

theorem applyOp_capacity (m : TsHashmap) (op : Op) :
    (applyOp m op).capacity = m.capacity := by
  cases op with
  | opGet k => rfl
  | opPut k v a =>
      simp only [applyOp, put]
      split
      · rfl
      · split <;> rfl
  | opDel k =>
      simp only [applyOp, del]
      split <;> rfl

theorem applyOp_table_length (m : TsHashmap) (op : Op) :
    (applyOp m op).table.length = m.table.length := by
  cases op with
  | opGet k => rfl
  | opPut k v a =>
      simp only [applyOp, put]
      split
      · simp
      · split <;> simp
  | opDel k =>
      simp only [applyOp, del]
      split <;> simp

theorem applyOp_WF {m : TsHashmap} (h : WF m) (op : Op) : WF (applyOp m op) := by
  unfold WF at h ⊢
  rw [applyOp_capacity, applyOp_table_length]
  exact h

theorem run_WF {m : TsHashmap} (ops : List Op) (h : WF m) : WF (run m ops) := by
  induction ops generalizing m with
  | nil => exact h
  | cons op rest ih => exact ih (applyOp_WF h op)

theorem run_capacity (m : TsHashmap) (ops : List Op) :
    (run m ops).capacity = m.capacity := by
  induction ops generalizing m with
  | nil => rfl
  | cons op rest ih => rw [run, ih, applyOp_capacity]

theorem toUInt32n_eq_toNat {x : Int} (h0 : 0 ≤ x) (h1 : x < 4294967296) :
    toUInt32n x = x.toNat := by
  unfold toUInt32n
  rw [Int.emod_eq_of_lt h0 h1]

theorem bucketIdx_lt {m : TsHashmap} (h : WF m) (k : Int) :
    bucketIdx k m.capacity < m.table.length := by
  obtain ⟨h1, h2, h3⟩ := h
  rw [h3]
  unfold bucketIdx
  rw [toUInt32n_eq_toNat (le_of_lt h1) (by omega)]
  exact Nat.mod_lt _ (by omega)

/-! ### Lookup after operations -/

theorem chainFind_getD_set (t : List Chain) (cap k : Int) (i : Nat) (c : Chain)
    (hlen : i < t.length)
    (hsame : i = bucketIdx k cap →
      chainFind k c = chainFind k (t.getD (bucketIdx k cap) [])) :
    chainFind k ((t.set i c).getD (bucketIdx k cap) [])
      = chainFind k (t.getD (bucketIdx k cap) []) := by
  by_cases hi : i = bucketIdx k cap
  · subst hi
    rw [getD_set_eq _ hlen]
    exact hsame rfl
  · rw [getD_set_ne _ _ hi]

theorem lookupVal_put_self {m : TsHashmap} (hwf : WF m) (k v : Int) :
    lookupVal (put m k v true).2 k = v := by
  have hlt := bucketIdx_lt hwf k
  cases hcc : containsKey m k with
  | true =>
      rw [put_found m k v true hcc]
      show chainFind k ((m.table.set (bucketIdx k m.capacity)
        (chainReplace k v (chainAt m (bucketIdx k m.capacity)))).getD
          (bucketIdx k m.capacity) []) = v
      rw [getD_set_eq _ hlt]
      exact chainFind_replace_self v (by rwa [containsKey] at hcc)
  | false =>
      rw [put_insert m k v hcc]
      show chainFind k ((m.table.set (bucketIdx k m.capacity)
        (chainAt m (bucketIdx k m.capacity) ++ [⟨k, v⟩])).getD
          (bucketIdx k m.capacity) []) = v
      rw [getD_set_eq _ hlt]
      exact chainFind_append_self k v (by rwa [containsKey] at hcc)

theorem lookupVal_applyOp_ne {m : TsHashmap} (hwf : WF m) {op : Op} {k : Int}
    (h : touches op k = false) :
    lookupVal (applyOp m op) k = lookupVal m k := by
  cases op with
  | opGet k₀ => rfl
  | opPut k₀ v a =>
      have hk : k ≠ k₀ := fun hh => by
        rw [touches, hh] at h
        simp at h
      have hlt := bucketIdx_lt hwf k₀
      cases hcc : containsKey m k₀ with
      | true =>
          rw [applyOp, put_found m k₀ v a hcc]
          exact chainFind_getD_set m.table m.capacity k _ _ hlt
            (fun hi => by rw [chainFind_replace_ne v _ hk, ← hi]; rfl)
      | false =>
          cases a with
          | true =>
              rw [applyOp, put_insert m k₀ v hcc]
              exact chainFind_getD_set m.table m.capacity k _ _ hlt
                (fun hi => by rw [chainFind_append_ne v _ hk, ← hi]; rfl)
          | false =>
              rw [applyOp, put_alloc_fail m k₀ v hcc]
              rfl
  | opDel k₀ =>
      have hk : k ≠ k₀ := fun hh => by
        rw [touches, hh] at h
        simp at h
      have hlt := bucketIdx_lt hwf k₀
      cases hcc : containsKey m k₀ with
      | true =>
          rw [applyOp, del_found m k₀ hcc]
          exact chainFind_getD_set m.table m.capacity k _ _ hlt
            (fun hi => by rw [chainFind_remove_ne _ hk, ← hi]; rfl)
      | false =>
          rw [applyOp, del_miss m k₀ hcc]
          rfl

theorem lookupVal_run_ne {m : TsHashmap} (hwf : WF m) {ops : List Op} {k : Int}
    (h : ∀ op ∈ ops, touches op k = false) :
    lookupVal (run m ops) k = lookupVal m k := by
  induction ops generalizing m with
  | nil => rfl
  | cons op rest ih =>
      rw [run, ih (applyOp_WF hwf op)
        (fun o ho => h o (List.mem_cons_of_mem _ ho)),
        lookupVal_applyOp_ne hwf (h op (List.mem_cons_self _ _))]

theorem sumLens_set {l : List Chain} {i : Nat} (c : Chain)
    (h : i < l.length) :
    sumLens (l.set i c) = sumLens l - ((l.getD i [] : Chain).length : Int)
      + (c.length : Int) := by
  induction l generalizing i with
  | nil => simp at h
  | cons hd tl ih =>
      cases i with
      | zero =>
          simp only [List.set_cons_zero, List.getD_cons_zero, sumLens,
            List.map_cons, List.sum_cons]
          push_cast
          ring
      | succ j =>
          have hj : j < tl.length := by simpa using h
          simp only [List.set_cons_succ, List.getD_cons_succ, sumLens,
            List.map_cons, List.sum_cons]
          have := ih (i := j) hj
          simp only [sumLens] at this
          push_cast at this ⊢
          omega

/-! ### The structural invariant is preserved -/

theorem chainOK_sublist {cap : Int} {i : Nat} {c c' : Chain}
    (hs : List.Sublist c' c) (h : chainOK cap i c) : chainOK cap i c' :=
  ⟨h.1.sublist (hs.map TsEntry.key), fun e he => h.2 e (hs.subset he)⟩

theorem getD_replicate_nil (n i : Nat) :
    (List.replicate n ([] : Chain)).getD i [] = [] := by
  induction n generalizing i with
  | zero => simp
  | succ n ih =>
      cases i with
      | zero => rfl
      | succ j =>
          rw [List.replicate_succ, List.getD_cons_succ]
          exact ih j

theorem initState_WF {c : Int} (h1 : 0 < c) (h2 : c < 2147483648) :
    WF (initState c) := by
  refine ⟨h1, h2, ?_⟩
  simp [initState]

theorem initState_MapInv (c : Int) : MapInv (initState c) := by
  intro i hi
  show chainOK c i (chainAt (initState c) i)
  unfold chainAt initState
  rw [getD_replicate_nil]
  exact ⟨List.nodup_nil, by simp⟩

theorem applyOp_MapInv {m : TsHashmap} (hwf : WF m) (hinv : MapInv m)
    (op : Op) : MapInv (applyOp m op) := by
  cases op with
  | opGet k => exact hinv
  | opPut k v a =>
      have hlt := bucketIdx_lt hwf k
      cases hcc : containsKey m k with
      | true =>
          rw [applyOp, put_found m k v a hcc]
          intro i hi
          rw [List.length_set] at hi
          show chainOK m.capacity i
            ((m.table.set (bucketIdx k m.capacity)
              (chainReplace k v (chainAt m (bucketIdx k m.capacity)))).getD i [])
          by_cases hik : i = bucketIdx k m.capacity
          · subst hik
            rw [getD_set_eq _ hlt]
            have h0 := hinv _ hi
            refine ⟨?_, ?_⟩
            · rw [map_key_chainReplace]
              exact h0.1
            · intro e he
              rcases mem_chainReplace he with ⟨e', he', hk'⟩
              rw [← hk']
              exact h0.2 e' he'
          · rw [getD_set_ne _ _ fun hh => hik hh.symm]
            exact hinv i hi
      | false =>
          cases a with
          | true =>
              rw [applyOp, put_insert m k v hcc]
              intro i hi
              rw [List.length_set] at hi
              show chainOK m.capacity i
                ((m.table.set (bucketIdx k m.capacity)
                  (chainAt m (bucketIdx k m.capacity)
                    ++ [⟨k, v⟩])).getD i [])
              by_cases hik : i = bucketIdx k m.capacity
              · subst hik
                rw [getD_set_eq _ hlt]
                have h0 := hinv _ hi
                have hnot : ¬ k ∈
                    (chainAt m (bucketIdx k m.capacity)).map TsEntry.key := by
                  rw [← chainContains_iff_mem]
                  rw [containsKey] at hcc
                  simp [hcc]
                refine ⟨?_, ?_⟩
                · rw [List.map_append]
                  simp only [List.map_cons, List.map_nil]
                  rw [List.nodup_append]
                  exact ⟨h0.1, List.nodup_singleton k,
                    by simpa [List.disjoint_left] using hnot⟩
                · intro e he
                  rcases List.mem_append.mp he with he' | he'
                  · exact h0.2 e he'
                  · rw [List.mem_singleton.mp he']
              · rw [getD_set_ne _ _ fun hh => hik hh.symm]
                exact hinv i hi
          | false =>
              rw [applyOp, put_alloc_fail m k v hcc]
              exact hinv
  | opDel k =>
      have hlt := bucketIdx_lt hwf k
      cases hcc : containsKey m k with
      | true =>
          rw [applyOp, del_found m k hcc]
          intro i hi
          rw [List.length_set] at hi
          show chainOK m.capacity i
            ((m.table.set (bucketIdx k m.capacity)
              (chainRemove k (chainAt m (bucketIdx k m.capacity)))).getD i [])
          by_cases hik : i = bucketIdx k m.capacity
          · subst hik
            rw [getD_set_eq _ hlt]
            exact chainOK_sublist (chainRemove_sublist k _) (hinv _ hi)
          · rw [getD_set_ne _ _ fun hh => hik hh.symm]
            exact hinv i hi
      | false =>
          rw [applyOp, del_miss m k hcc]
          exact hinv

theorem run_MapInv {m : TsHashmap} (hwf : WF m) (hinv : MapInv m)
    (ops : List Op) : MapInv (run m ops) := by
  induction ops generalizing m with
  | nil => exact hinv
  | cons op rest ih =>
      exact ih (applyOp_WF hwf op) (applyOp_MapInv hwf hinv op)

/-! ### Counter and size bookkeeping per operation -/

theorem applyOp_numOps (m : TsHashmap) (op : Op) :
    (applyOp m op).numOps = m.numOps + 1 := by
  cases op with
  | opGet k => rfl
  | opPut k v a =>
      cases hcc : containsKey m k with
      | true => rw [applyOp, put_found m k v a hcc]
      | false =>
          cases a with
          | true => rw [applyOp, put_insert m k v hcc]
          | false => rw [applyOp, put_alloc_fail m k v hcc]
  | opDel k =>
      cases hcc : containsKey m k with
      | true => rw [applyOp, del_found m k hcc]
      | false => rw [applyOp, del_miss m k hcc]

theorem applyOp_put_adds (m : TsHashmap) (op : Op) :
    (applyOp m op).put_adds = m.put_adds + insertCount m op := by
  cases op with
  | opGet k =>
      rw [applyOp, get_eq]
      simp [insertCount]
  | opPut k v a =>
      cases hcc : containsKey m k with
      | true =>
          rw [applyOp, put_found m k v a hcc]
          simp [insertCount, hcc]
      | false =>
          cases a with
          | true =>
              rw [applyOp, put_insert m k v hcc]
              simp [insertCount, hcc]
          | false =>
              rw [applyOp, put_alloc_fail m k v hcc]
              simp [insertCount, hcc]
  | opDel k =>
      cases hcc : containsKey m k with
      | true =>
          rw [applyOp, del_found m k hcc]
          simp [delSuccCount, insertCount]
      | false =>
          rw [applyOp, del_miss m k hcc]
          simp [delSuccCount, insertCount]

theorem applyOp_del_succ (m : TsHashmap) (op : Op) :
    (applyOp m op).del_succ = m.del_succ + delSuccCount m op := by
  cases op with
  | opGet k =>
      rw [applyOp, get_eq]
      simp [delSuccCount]
  | opPut k v a =>
      cases hcc : containsKey m k with
      | true =>
          rw [applyOp, put_found m k v a hcc]
          simp [delSuccCount]
      | false =>
          cases a with
          | true =>
              rw [applyOp, put_insert m k v hcc]
              simp [delSuccCount]
          | false =>
              rw [applyOp, put_alloc_fail m k v hcc]
              simp [delSuccCount]
  | opDel k =>
      cases hcc : containsKey m k with
      | true =>
          rw [applyOp, del_found m k hcc]
          simp [delSuccCount, hcc]
      | false =>
          rw [applyOp, del_miss m k hcc]
          simp [delSuccCount, hcc]

theorem applyOp_size (m : TsHashmap) (op : Op) :
    (applyOp m op).size = m.size + insertCount m op - delSuccCount m op := by
  cases op with
  | opGet k =>
      rw [applyOp, get_eq]
      simp [insertCount, delSuccCount]
  | opPut k v a =>
      cases hcc : containsKey m k with
      | true =>
          rw [applyOp, put_found m k v a hcc]
          simp [insertCount, delSuccCount, hcc]
      | false =>
          cases a with
          | true =>
              rw [applyOp, put_insert m k v hcc]
              simp [insertCount, delSuccCount, hcc]
          | false =>
              rw [applyOp, put_alloc_fail m k v hcc]
              simp [insertCount, delSuccCount, hcc]
  | opDel k =>
      cases hcc : containsKey m k with
      | true =>
          rw [applyOp, del_found m k hcc]
          simp [insertCount, delSuccCount, hcc]
      | false =>
          rw [applyOp, del_miss m k hcc]
          simp [insertCount, delSuccCount, hcc]

theorem applyOp_sumLens {m : TsHashmap} (hwf : WF m) (op : Op) :
    sumLens (applyOp m op).table
      = sumLens m.table + insertCount m op - delSuccCount m op := by
  cases op with
  | opGet k =>
      rw [applyOp, get_eq]
      simp [insertCount, delSuccCount]
  | opPut k v a =>
      have hlt := bucketIdx_lt hwf k
      cases hcc : containsKey m k with
      | true =>
          rw [applyOp, put_found m k v a hcc]
          show sumLens (m.table.set (bucketIdx k m.capacity)
            (chainReplace k v (chainAt m (bucketIdx k m.capacity)))) = _
          rw [sumLens_set _ hlt, length_chainReplace]
          simp [insertCount, delSuccCount, hcc, chainAt]
      | false =>
          cases a with
          | true =>
              rw [applyOp, put_insert m k v hcc]
              show sumLens (m.table.set (bucketIdx k m.capacity)
                (chainAt m (bucketIdx k m.capacity) ++ [⟨k, v⟩])) = _
              rw [sumLens_set _ hlt]
              simp [insertCount, delSuccCount, hcc, chainAt]
              ring
          | false =>
              rw [applyOp, put_alloc_fail m k v hcc]
              simp [insertCount, delSuccCount, hcc]
  | opDel k =>
      have hlt := bucketIdx_lt hwf k
      cases hcc : containsKey m k with
      | true =>
          rw [applyOp, del_found m k hcc]
          show sumLens (m.table.set (bucketIdx k m.capacity)
            (chainRemove k (chainAt m (bucketIdx k m.capacity)))) = _
          rw [sumLens_set _ hlt]
          have hlen := length_chainRemove
            (show chainContains k (chainAt m (bucketIdx k m.capacity)) = true by
              rwa [containsKey] at hcc)
          simp only [insertCount, delSuccCount, hcc, if_true, ite_true]
          simp only [chainAt] at hlen ⊢
          omega
      | false =>
          rw [applyOp, del_miss m k hcc]
          simp [insertCount, delSuccCount, hcc]

/-! ### Run-level bookkeeping -/

theorem run_put_adds (m : TsHashmap) (ops : List Op) :
    (run m ops).put_adds = m.put_adds + countInsertsFrom m ops := by
  induction ops generalizing m with
  | nil => simp [run, countInsertsFrom]
  | cons op rest ih =>
      rw [run, countInsertsFrom, ih, applyOp_put_adds]
      omega

theorem run_del_succ (m : TsHashmap) (ops : List Op) :
    (run m ops).del_succ = m.del_succ + countDelSuccFrom m ops := by
  induction ops generalizing m with
  | nil => simp [run, countDelSuccFrom]
  | cons op rest ih =>
      rw [run, countDelSuccFrom, ih, applyOp_del_succ]
      omega

theorem run_size (m : TsHashmap) (ops : List Op) :
    (run m ops).size
      = m.size + countInsertsFrom m ops - countDelSuccFrom m ops := by
  induction ops generalizing m with
  | nil => simp [run, countInsertsFrom, countDelSuccFrom]
  | cons op rest ih =>
      rw [run, countInsertsFrom, countDelSuccFrom, ih, applyOp_size]
      omega

theorem run_sumLens {m : TsHashmap} (hwf : WF m) (ops : List Op) :
    sumLens (run m ops).table
      = sumLens m.table + countInsertsFrom m ops - countDelSuccFrom m ops := by
  induction ops generalizing m with
  | nil => simp [run, countInsertsFrom, countDelSuccFrom]
  | cons op rest ih =>
      rw [run, countInsertsFrom, countDelSuccFrom,
        ih (applyOp_WF hwf op), applyOp_sumLens hwf]
      omega

theorem applyOp_counter_sum {m : TsHashmap} {op : Op}
    (ha : opAllocOk op = true) :
    (applyOp m op).gets + (applyOp m op).put_adds + (applyOp m op).put_reps
        + (applyOp m op).del_succ + (applyOp m op).del_fail
      = m.gets + m.put_adds + m.put_reps + m.del_succ + m.del_fail + 1 := by
  cases op with
  | opGet k =>
      rw [applyOp, get_eq]
      simp
      omega
  | opPut k v a =>
      rw [opAllocOk] at ha
      subst ha
      cases hcc : containsKey m k with
      | true =>
          rw [applyOp, put_found m k v true hcc]
          simp
          omega
      | false =>
          rw [applyOp, put_insert m k v hcc]
          simp
          omega
  | opDel k =>
      cases hcc : containsKey m k with
      | true =>
          rw [applyOp, del_found m k hcc]
          simp
          omega
      | false =>
          rw [applyOp, del_miss m k hcc]
          simp
          omega

theorem run_counter_sum {m : TsHashmap} {ops : List Op}
    (ha : ∀ op ∈ ops, opAllocOk op = true)
    (h : m.numOps = m.gets + m.put_adds + m.put_reps
          + m.del_succ + m.del_fail) :
    (run m ops).numOps = (run m ops).gets + (run m ops).put_adds
        + (run m ops).put_reps + (run m ops).del_succ
        + (run m ops).del_fail := by
  induction ops generalizing m with
  | nil => exact h
  | cons op rest ih =>
      rw [run]
      refine ih (fun o ho => ha o (List.mem_cons_of_mem _ ho)) ?_
      rw [applyOp_numOps, applyOp_counter_sum (ha op (List.mem_cons_self _ _)), h]

/-! ### Presence after `put`, absence after `del` -/

theorem chainContains_replace (k k' v : Int) (c : Chain) :
    chainContains k (chainReplace k' v c) = chainContains k c := by
  induction c with
  | nil => rfl
  | cons e rest ih =>
      by_cases he : e.key = k'
      · rw [chainReplace, if_pos he]
        show (if e.key = k then true else chainContains k rest)
          = chainContains k (e :: rest)
        rw [chainContains]
      · rw [chainReplace, if_neg he, chainContains, chainContains, ih]

theorem containsKey_put_self {m : TsHashmap} (hwf : WF m) (k v : Int) :
    containsKey (put m k v true).2 k = true := by
  have hlt := bucketIdx_lt hwf k
  cases hcc : containsKey m k with
  | true =>
      rw [put_found m k v true hcc]
      show chainContains k ((m.table.set (bucketIdx k m.capacity)
        (chainReplace k v (chainAt m (bucketIdx k m.capacity)))).getD
          (bucketIdx k m.capacity) []) = true
      rw [getD_set_eq _ hlt, chainContains_replace]
      rwa [containsKey] at hcc
  | false =>
      rw [put_insert m k v hcc]
      show chainContains k ((m.table.set (bucketIdx k m.capacity)
        (chainAt m (bucketIdx k m.capacity) ++ [⟨k, v⟩])).getD
          (bucketIdx k m.capacity) []) = true
      rw [getD_set_eq _ hlt, chainContains_iff_mem]
      simp

theorem lookupVal_del_self {m : TsHashmap} (hwf : WF m) (hinv : MapInv m)
    (k : Int) : lookupVal (del m k).2 k = INT_MAX := by
  have hlt := bucketIdx_lt hwf k
  cases hcc : containsKey m k with
  | true =>
      rw [del_found m k hcc]
      show chainFind k ((m.table.set (bucketIdx k m.capacity)
        (chainRemove k (chainAt m (bucketIdx k m.capacity)))).getD
          (bucketIdx k m.capacity) []) = INT_MAX
      rw [getD_set_eq _ hlt]
      exact chainFind_of_not_contains
        (chainContains_remove_self (hinv _ hlt).1)
  | false =>
      rw [del_miss m k hcc]
      show chainFind k (chainAt m (bucketIdx k m.capacity)) = INT_MAX
      exact chainFind_of_not_contains (by rwa [containsKey] at hcc)

theorem sumLens_replicate (n : Nat) : sumLens (List.replicate n []) = 0 := by
  induction n with
  | zero => rfl
  | succ n ih =>
      rw [List.replicate_succ]
      simp only [sumLens, List.map_cons, List.sum_cons, List.length_nil] at ih ⊢
      omega

/-! ### The claims -/

/-- **C1** (read-after-write): after `put(map, k, v)` completes,
`get(map, k)` returns `v`, and keeps returning `v` across any further
sequence of operations none of which is a put or delete on `k`. -/
theorem c1_read_after_write (m : TsHashmap) (k v : Int) (ops : List Op)
    (hwf : WF m) (hops : ∀ op ∈ ops, touches op k = false) :
    (get (run (put m k v true).2 ops) k).1 = v := by
  show lookupVal (run (applyOp m (Op.opPut k v true)) ops) k = v
  rw [lookupVal_run_ne (applyOp_WF hwf (Op.opPut k v true)) hops]
  exact lookupVal_put_self hwf k v

/-- Witness for C1: on a fresh map of capacity 4, `put(1,10)` followed by
`get(5)`, `put(2,7)`, `del(3)` still has `get(1) = 10`. -/
theorem c1_read_after_write_witness :
    (get (run (put (initState 4) 1 10 true).2
      [Op.opGet 5, Op.opPut 2 7 true, Op.opDel 3]) 1).1 = 10 :=
  c1_read_after_write (initState 4) 1 10
    [Op.opGet 5, Op.opPut 2 7 true, Op.opDel 3]
    (initState_WF (by decide) (by decide)) (by decide)

/-- **C2** (insert vs replace signaling): `put(k, v1)` on an absent key
returns the "was new" sentinel `INT_MAX`; a subsequent `put(k, v2)`
returns `v1`. -/
theorem c2_insert_then_replace (m : TsHashmap) (k v1 v2 : Int)
    (hwf : WF m) (habs : containsKey m k = false) :
    (put m k v1 true).1 = INT_MAX ∧
      (put (put m k v1 true).2 k v2 true).1 = v1 := by
  constructor
  · rw [put_insert m k v1 habs]
  · rw [put_found _ k v2 true (containsKey_put_self hwf k v1)]
    show lookupVal (put m k v1 true).2 k = v1
    exact lookupVal_put_self hwf k v1

/-- Witness for C2 at capacity 4, key 1, values 10 then 11. -/
theorem c2_insert_then_replace_witness :
    (put (initState 4) 1 10 true).1 = INT_MAX ∧
      (put (put (initState 4) 1 10 true).2 1 11 true).1 = 10 :=
  c2_insert_then_replace (initState 4) 1 10 11
    (initState_WF (by decide) (by decide)) (by decide)

/-- **C3** (delete correctness): after `put(k, v)`, `del(k)` returns `v`
and a following `get(k)` returns the "not found" sentinel `INT_MAX`;
`del(k)` on an absent key returns `INT_MAX` and leaves `size`
unchanged. -/
theorem c3_delete_correct (m : TsHashmap) (k v : Int)
    (hwf : WF m) (hinv : MapInv m) :
    ((del (put m k v true).2 k).1 = v ∧
      (get (del (put m k v true).2 k).2 k).1 = INT_MAX) ∧
    (containsKey m k = false →
      (del m k).1 = INT_MAX ∧ (del m k).2.size = m.size) := by
  have hwf' : WF (put m k v true).2 := applyOp_WF hwf (Op.opPut k v true)
  have hinv' : MapInv (put m k v true).2 :=
    applyOp_MapInv hwf hinv (Op.opPut k v true)
  refine ⟨⟨?_, ?_⟩, fun habs => ?_⟩
  · rw [del_found _ k (containsKey_put_self hwf k v)]
    show lookupVal (put m k v true).2 k = v
    exact lookupVal_put_self hwf k v
  · show lookupVal (del (put m k v true).2 k).2 k = INT_MAX
    exact lookupVal_del_self hwf' hinv' k
  · rw [del_miss m k habs]
    exact ⟨rfl, rfl⟩

/-- Witness for C3 at capacity 4, key 2, value 20 (key 2 absent in the
fresh map). -/
theorem c3_delete_correct_witness :
    ((del (put (initState 4) 2 20 true).2 2).1 = 20 ∧
      (get (del (put (initState 4) 2 20 true).2 2).2 2).1 = INT_MAX) ∧
    (containsKey (initState 4) 2 = false →
      (del (initState 4) 2).1 = INT_MAX ∧
        (del (initState 4) 2).2.size = (initState 4).size) :=
  c3_delete_correct (initState 4) 2 20
    (initState_WF (by decide) (by decide)) (initState_MapInv 4)

/-- **C4** (structural invariant): from a freshly created map, every
sequence of operations preserves the invariant that each bucket chain has
pairwise-distinct keys and every entry in bucket `i` hashes to `i`; hence
a key occurs in at most one bucket of the whole map. -/
theorem c4_structural_invariant (c : Int) (ops : List Op)
    (h1 : 0 < c) (h2 : c < 2147483648) :
    MapInv (run (initState c) ops) ∧
      (∀ i j : Nat, i < (run (initState c) ops).table.length →
        j < (run (initState c) ops).table.length →
        ∀ e ∈ chainAt (run (initState c) ops) i,
          ∀ e' ∈ chainAt (run (initState c) ops) j,
            e.key = e'.key → i = j) := by
  have hinv := run_MapInv (initState_WF h1 h2) (initState_MapInv c) ops
  refine ⟨hinv, fun i j hi hj e he e' he' hk => ?_⟩
  rw [← (hinv i hi).2 e he, ← (hinv j hj).2 e' he', hk]

/-- Witness for C4: capacity 4 with colliding keys 1 and 5, a replace and
a delete. -/
theorem c4_structural_invariant_witness :
    MapInv (run (initState 4)
      [Op.opPut 1 10 true, Op.opPut 5 20 true, Op.opPut 1 11 true,
        Op.opDel 5]) ∧
      (∀ i j : Nat,
        i < (run (initState 4)
          [Op.opPut 1 10 true, Op.opPut 5 20 true, Op.opPut 1 11 true,
            Op.opDel 5]).table.length →
        j < (run (initState 4)
          [Op.opPut 1 10 true, Op.opPut 5 20 true, Op.opPut 1 11 true,
            Op.opDel 5]).table.length →
        ∀ e ∈ chainAt (run (initState 4)
          [Op.opPut 1 10 true, Op.opPut 5 20 true, Op.opPut 1 11 true,
            Op.opDel 5]) i,
          ∀ e' ∈ chainAt (run (initState 4)
            [Op.opPut 1 10 true, Op.opPut 5 20 true, Op.opPut 1 11 true,
              Op.opDel 5]) j,
            e.key = e'.key → i = j) :=
  c4_structural_invariant 4
    [Op.opPut 1 10 true, Op.opPut 5 20 true, Op.opPut 1 11 true,
      Op.opDel 5] (by decide) (by decide)

/-- **C5** (size identity): at every quiescent point reached from a fresh
map, `size` equals the number of successful inserts minus the number of
successful deletes performed so far, and also equals the sum of the chain
lengths over all buckets. -/
theorem c5_size_identity (c : Int) (ops : List Op)
    (h1 : 0 < c) (h2 : c < 2147483648) :
    (run (initState c) ops).size
        = countInsertsFrom (initState c) ops
          - countDelSuccFrom (initState c) ops ∧
      (run (initState c) ops).size = sumLens (run (initState c) ops).table := by
  have hwf := initState_WF h1 h2
  have hs := run_size (initState c) ops
  have hl := run_sumLens hwf ops
  have h0 : sumLens (initState c).table = 0 := sumLens_replicate c.toNat
  constructor
  · rw [hs]
    show (0 : Int) + countInsertsFrom (initState c) ops
        - countDelSuccFrom (initState c) ops
      = countInsertsFrom (initState c) ops - countDelSuccFrom (initState c) ops
    omega
  · rw [hs, hl, h0]
    show (0 : Int) + countInsertsFrom (initState c) ops
        - countDelSuccFrom (initState c) ops
      = 0 + countInsertsFrom (initState c) ops
        - countDelSuccFrom (initState c) ops
    rfl

/-- Witness for C5: capacity 4, two inserts, one replace, one successful
and one failed delete. -/
theorem c5_size_identity_witness :
    (run (initState 4)
        [Op.opPut 1 10 true, Op.opPut 5 20 true, Op.opPut 1 11 true,
          Op.opDel 5, Op.opDel 3]).size
        = countInsertsFrom (initState 4)
            [Op.opPut 1 10 true, Op.opPut 5 20 true, Op.opPut 1 11 true,
              Op.opDel 5, Op.opDel 3]
          - countDelSuccFrom (initState 4)
              [Op.opPut 1 10 true, Op.opPut 5 20 true, Op.opPut 1 11 true,
                Op.opDel 5, Op.opDel 3] ∧
      (run (initState 4)
        [Op.opPut 1 10 true, Op.opPut 5 20 true, Op.opPut 1 11 true,
          Op.opDel 5, Op.opDel 3]).size
        = sumLens (run (initState 4)
            [Op.opPut 1 10 true, Op.opPut 5 20 true, Op.opPut 1 11 true,
              Op.opDel 5, Op.opDel 3]).table :=
  c5_size_identity 4
    [Op.opPut 1 10 true, Op.opPut 5 20 true, Op.opPut 1 11 true,
      Op.opDel 5, Op.opDel 3] (by decide) (by decide)

/-- **C6** counterexample: a `put` whose entry allocation fails increments
`numOps` but no outcome counter, so after one such `put(1,10)` on a fresh
map of capacity 4 the total `numOps = 1` while the outcome counters sum
to 0 — the claimed identity fails at that quiescent point. -/
theorem c6_counterexample :
    ¬ ((run (initState 4) [Op.opPut 1 10 false]).numOps
        = (run (initState 4) [Op.opPut 1 10 false]).gets
          + (run (initState 4) [Op.opPut 1 10 false]).put_adds
          + (run (initState 4) [Op.opPut 1 10 false]).put_reps
          + (run (initState 4) [Op.opPut 1 10 false]).del_succ
          + (run (initState 4) [Op.opPut 1 10 false]).del_fail) := by
  decide

/-- **C6** (amended): at every quiescent point reached from a fresh map by
operations in which no entry allocation fails, `numOps` equals
`gets + put_adds + put_reps + del_succ + del_fail`. -/
theorem c6_counter_identity (c : Int) (ops : List Op)
    (ha : ∀ op ∈ ops, opAllocOk op = true) :
    (run (initState c) ops).numOps
      = (run (initState c) ops).gets + (run (initState c) ops).put_adds
        + (run (initState c) ops).put_reps + (run (initState c) ops).del_succ
        + (run (initState c) ops).del_fail :=
  run_counter_sum ha (by simp [initState])

/-- Witness for C6: capacity 4, one insert, one get, one successful and
one failed delete, all with successful allocation. -/
theorem c6_counter_identity_witness :
    (run (initState 4)
        [Op.opPut 1 10 true, Op.opGet 1, Op.opDel 1, Op.opDel 2]).numOps
      = (run (initState 4)
          [Op.opPut 1 10 true, Op.opGet 1, Op.opDel 1, Op.opDel 2]).gets
        + (run (initState 4)
            [Op.opPut 1 10 true, Op.opGet 1, Op.opDel 1, Op.opDel 2]).put_adds
        + (run (initState 4)
            [Op.opPut 1 10 true, Op.opGet 1, Op.opDel 1, Op.opDel 2]).put_reps
        + (run (initState 4)
            [Op.opPut 1 10 true, Op.opGet 1, Op.opDel 1, Op.opDel 2]).del_succ
        + (run (initState 4)
            [Op.opPut 1 10 true, Op.opGet 1, Op.opDel 1, Op.opDel 2]).del_fail :=
  c6_counter_identity 4 [Op.opPut 1 10 true, Op.opGet 1, Op.opDel 1, Op.opDel 2]
    (by decide)

/-- **C7** counterexample: on a fresh map of capacity 4, a `put(1,10)`
whose entry allocation fails returns the very same value `INT_MAX` that a
successful fresh-key `put(1,10)` returns as its "was new" sentinel — the
failure signal is not distinct from "was new". -/
theorem c7_counterexample :
    (put (initState 4) 1 10 false).1 = (put (initState 4) 1 10 true).1 ∧
      (put (initState 4) 1 10 false).1 = INT_MAX := by
  decide

/-- **C7** (amended): when entry allocation fails during a put that would
insert a new key, the put aborts leaving the bucket table (hence every
chain) and `size` unchanged, increments `numOps` exactly once and no
outcome counter, and returns `INT_MAX` — the same value as the "was new"
sentinel, not a distinct failure signal. -/
theorem c7_alloc_fail (m : TsHashmap) (k v : Int)
    (habs : containsKey m k = false) :
    (put m k v false).1 = INT_MAX ∧
      (put m k v false).2.table = m.table ∧
      (put m k v false).2.size = m.size ∧
      (put m k v false).2.numOps = m.numOps + 1 ∧
      (put m k v false).2.put_adds = m.put_adds ∧
      (put m k v false).2.put_reps = m.put_reps := by
  rw [put_alloc_fail m k v habs]
  exact ⟨rfl, rfl, rfl, rfl, rfl, rfl⟩

/-- Witness for C7 at capacity 4, key 1, value 10. -/
theorem c7_alloc_fail_witness :
    (put (initState 4) 1 10 false).1 = INT_MAX ∧
      (put (initState 4) 1 10 false).2.table = (initState 4).table ∧
      (put (initState 4) 1 10 false).2.size = (initState 4).size ∧
      (put (initState 4) 1 10 false).2.numOps = (initState 4).numOps + 1 ∧
      (put (initState 4) 1 10 false).2.put_adds = (initState 4).put_adds ∧
      (put (initState 4) 1 10 false).2.put_reps = (initState 4).put_reps :=
  c7_alloc_fail (initState 4) 1 10 (by decide)

/-- **C8** counterexample: `initmap` never checks its capacity argument:
with capacity 0 and all three allocations succeeding it returns a map,
not a failure. -/
theorem c8_counterexample :
    (initmap 0 ⟨true, true, true⟩).result ≠ none := by
  decide

/-- **C8** (amended): `initmap(capacity)` performs no validation of
`capacity`: it returns `NULL` exactly when one of its three allocations
fails, and on every allocation-failure path the freed resources are
exactly (a permutation of) the previously allocated ones. -/
theorem c8_initmap_failure (c : Int) (o : AllocOracle) :
    ((initmap c o).result = none ↔
        (o.mapOk = false ∨ o.tableOk = false ∨ o.locksOk = false)) ∧
      ((initmap c o).result = none →
        List.Perm (initmap c o).freed (initmap c o).allocated) := by
  rcases o with ⟨mo, tb, lo⟩
  cases mo <;> cases tb <;> cases lo <;>
    first
      | exact ⟨by simp [initmap], fun h => List.Perm.refl _⟩
      | exact ⟨by simp [initmap], fun h => List.Perm.swap _ _ _⟩
      | exact ⟨by simp [initmap], fun h => absurd h (by simp [initmap])⟩

/-- Witness for C8: with the lock-array allocation failing, `initmap`
returns `NULL` and the freed resources match the allocated ones. -/
theorem c8_initmap_failure_witness :
    List.Perm (initmap 7 ⟨true, false, true⟩).freed
      (initmap 7 ⟨true, false, true⟩).allocated :=
  (c8_initmap_failure 7 ⟨true, false, true⟩).2 rfl

/-- **C9**: the claim says that with zero total operations each outcome
percentage is defined as 0%; the code instead divides unconditionally by
`numOps`, so freeing a map with `numOps = 0` (e.g. right after
`initmap(4)`) makes every percentage the indeterminate `0.0/0.0` (NaN in
the printed report), not 0%. -/
theorem c9_report_divides_by_zero :
    (initState 4).numOps = 0 ∧
      (freeMapReport (initState 4)).getsPct = none ∧
      (freeMapReport (initState 4)).putAddsPct = none ∧
      (freeMapReport (initState 4)).putRepsPct = none ∧
      (freeMapReport (initState 4)).delSuccPct = none ∧
      (freeMapReport (initState 4)).delFailPct = none ∧
      (freeMapReport (initState 4)).getsPct ≠ some 0 := by
  refine ⟨rfl, ?_, ?_, ?_, ?_, ?_, ?_⟩ <;>
    simp [freeMapReport, reportPercent, initState]

/-- **C10**: the "not found"/"was new" sentinel is the in-band value
`INT_MAX = 2147483647`, itself a legal stored value: after
`put(map, k, INT_MAX)`, both `get(map, k)` and `del(map, k)` return
`INT_MAX` — indistinguishable from what they return on an absent key. -/
theorem c10_sentinel_in_band (m : TsHashmap) (k : Int) (hwf : WF m) :
    (get (put m k INT_MAX true).2 k).1 = INT_MAX ∧
      (del (put m k INT_MAX true).2 k).1 = INT_MAX ∧
      (containsKey m k = false →
        (get m k).1 = INT_MAX ∧ (del m k).1 = INT_MAX) := by
  refine ⟨?_, ?_, fun habs => ⟨?_, ?_⟩⟩
  · show lookupVal (put m k INT_MAX true).2 k = INT_MAX
    exact lookupVal_put_self hwf k INT_MAX
  · rw [del_found _ k (containsKey_put_self hwf k INT_MAX)]
    show lookupVal (put m k INT_MAX true).2 k = INT_MAX
    exact lookupVal_put_self hwf k INT_MAX
  · show lookupVal m k = INT_MAX
    exact chainFind_of_not_contains (by rwa [containsKey] at habs)
  · rw [del_miss m k habs]

/-- Witness for C10 at capacity 4, key 3. -/
theorem c10_sentinel_in_band_witness :
    (get (put (initState 4) 3 INT_MAX true).2 3).1 = INT_MAX ∧
      (del (put (initState 4) 3 INT_MAX true).2 3).1 = INT_MAX ∧
      (containsKey (initState 4) 3 = false →
        (get (initState 4) 3).1 = INT_MAX ∧
          (del (initState 4) 3).1 = INT_MAX) :=
  c10_sentinel_in_band (initState 4) 3 (initState_WF (by decide) (by decide))
